import Mathlib

/-!
Shallow embedding of the screen-recorder upload service.

The canonical implementation is `fuck.py`; the superseded variant `app.py`
is embedded in namespace `app` only where a claim refers to it.

The storage directory (`VIDEO_DIR`) is modelled as a map from file name
(the path component inside the directory, which is also what
`os.path.basename` returns for the paths the code builds) to file
contents, a list of bytes.  File modification times are modelled
separately, as directory listings handed to the pure listing functions.
-/

/-- File contents: a sequence of bytes. -/
abbrev Bytes := List Nat

/-- The storage directory: file name ↦ contents (`none` = file absent). -/
abbrev FS := String → Option Bytes

/-- Writing a whole file (`open(path, "wb")` semantics, or the result of an
append once the new contents are computed). -/
def FS.update (fs : FS) (name : String) (b : Bytes) : FS :=
  fun n => if n = name then some b else fs n

/-- `shutil.move src dst`: `dst` receives the contents of `src`, `src` is
removed.  Only called by the code when `src` exists and `dst` does not. -/
def FS.move (fs : FS) (src dst : String) : FS :=
  fun n => if n = dst then fs src else if n = src then none else fs n

/-- The empty storage directory. -/
def emptyFS : FS := fun _ => none

/-- JSON values, as far as the service's responses need them.  `null` is kept
distinct from an absent key: the wire format distinguishes the two. -/
inductive JVal where
  | null
  | bool (b : Bool)
  | str (s : String)
  | nat (n : Nat)
deriving DecidableEq, Repr

/-- A JSON object: association list of fields in emission order. -/
abbrev JObj := List (String × JVal)

/-- `PART_EXT = ".partial"` from `fuck.py`. -/
def PART_EXT : String := ".partial"

/-- `_session_path(session_id, ext)` without the constant `VIDEO_DIR` prefix
(the map that models the directory is keyed by the name inside it). -/
def session_path (sid ext : String) : String := sid ++ ext

/-- The per-session partial upload target `{sid}.webm.partial`. -/
def partName (sid : String) : String := session_path sid (".webm" ++ PART_EXT)

/-- The finalized raw video `{sid}.webm`. -/
def webmName (sid : String) : String := session_path sid ".webm"

/-- The transcoded video `{sid}.mp4` (`os.path.splitext` strips the final
`.webm` component, so this is `sid + ".mp4"` for every session string). -/
def mp4Name (sid : String) : String := session_path sid ".mp4"

/-- The snapshot image `{sid}.jpg`. -/
def snapName (sid : String) : String := session_path sid ".jpg"

theorem lastChar_append (s t : String) {c : Char}
    (h : t.data.getLast? = some c) : (s ++ t).data.getLast? = some c := by
  rw [String.data_append, List.getLast?_append, h]; rfl

theorem webmName_ne_partName (a b : String) : webmName a ≠ partName b := by
  intro h
  have h1 : (webmName a).data.getLast? = some 'm' :=
    lastChar_append a ".webm" (by decide)
  have h2 : (partName b).data.getLast? = some 'l' :=
    lastChar_append b (".webm" ++ PART_EXT) (by decide)
  rw [h, h2] at h1
  cases h1

theorem webmName_ne_mp4Name (a b : String) : webmName a ≠ mp4Name b := by
  intro h
  have h1 : (webmName a).data.getLast? = some 'm' :=
    lastChar_append a ".webm" (by decide)
  have h2 : (mp4Name b).data.getLast? = some '4' :=
    lastChar_append b ".mp4" (by decide)
  rw [h, h2] at h1
  cases h1

theorem webmName_ne_snapName (a b : String) : webmName a ≠ snapName b := by
  intro h
  have h1 : (webmName a).data.getLast? = some 'm' :=
    lastChar_append a ".webm" (by decide)
  have h2 : (snapName b).data.getLast? = some 'g' :=
    lastChar_append b ".jpg" (by decide)
  rw [h, h2] at h1
  cases h1

/-- `POST /upload/<session_id>` (`fuck.py`): open the session's partial file
in append mode (creating it if absent) and write the request body.  The
returned number is the `X-Received-Bytes` header, i.e.
`os.path.getsize(partial_path)` after the write. -/
def upload_chunk (fs : FS) (sid : String) (body : Bytes) : FS × Nat :=
  let p := partName sid
  let newContent := ((fs p).getD []) ++ body
  (fs.update p newContent, newContent.length)

/-- Outcome of one invocation of the external transcoder process:
unavailable (version probe failed), success with the produced output file,
or failure (non-zero exit / crash), possibly leaving a partial output file
behind. -/
inductive TransResult where
  | unavailable
  | ok (out : Bytes)
  | fail (leftover : Option Bytes)
deriving DecidableEq, Repr

/-- `_finalize_to_mp4` (`fuck.py`): if the transcoder is available, run it on
the raw video producing `{sid}.mp4`; return the output path only on success
with the file present; swallow every failure, returning `None`. -/
def finalize_to_mp4 (fs : FS) (sid : String) (t : TransResult) :
    FS × Option String :=
  match t with
  | .unavailable => (fs, none)
  | .ok out => (fs.update (mp4Name sid) out, some (mp4Name sid))
  | .fail none => (fs, none)
  | .fail (some left) => (fs.update (mp4Name sid) left, none)

/-- `POST /finalize/<session_id>` (`fuck.py`).  Returns the new directory
state, the HTTP status code, and the JSON body.  `t` is the behaviour of the
external transcoder for this invocation, `now` the `_now_iso()` timestamp. -/
def finalize (fs : FS) (sid : String) (t : TransResult) (now : String) :
    FS × Nat × JObj :=
  let pp := partName sid
  let wp := webmName sid
  if (fs pp).isNone ∧ (fs wp).isNone then
    (fs, 404, [("ok", JVal.bool false), ("error", JVal.str "no recording")])
  else if (fs wp).isSome then
    let out : JObj := [("ok", JVal.bool true), ("webm", JVal.str wp)]
    let out := if (fs (mp4Name sid)).isSome then
        out ++ [("mp4", JVal.str (mp4Name sid))] else out
    (fs, 200, out)
  else
    let fs1 := if (fs pp).isSome then fs.move pp wp else fs
    let res := finalize_to_mp4 fs1 sid t
    (res.1, 200,
      [("ok", JVal.bool true),
       ("webm", if (res.1 wp).isSome then JVal.str wp else JVal.null),
       ("mp4", match res.2 with
         | some p => if (res.1 p).isSome then JVal.str p else JVal.null
         | none => JVal.null),
       ("at", JVal.str now)])

/-- `POST /snapshot/<session_id>` (`fuck.py`): truncate-and-write the
session's snapshot file with the request body. -/
def snapshot (fs : FS) (sid : String) (body : Bytes) (now : String) :
    FS × JObj :=
  (fs.update (snapName sid) body,
   [("ok", JVal.bool true), ("at", JVal.str now),
    ("file", JVal.str (snapName sid))])

/-- Running a whole sequence of chunk uploads for one session. -/
def uploadChunks (fs : FS) (sid : String) (chunks : List Bytes) : FS :=
  chunks.foldl (fun s c => (upload_chunk s sid c).1) fs

theorem uploadChunks_part (chunks : List Bytes) :
    ∀ (fs : FS) (sid : String) (cur : Bytes), fs (partName sid) = some cur →
      uploadChunks fs sid chunks (partName sid) = some (cur ++ chunks.flatten) := by
  induction chunks with
  | nil => intro fs sid cur h; simpa [uploadChunks] using h
  | cons c cs ih =>
    intro fs sid cur h
    have hstep : (upload_chunk fs sid c).1 (partName sid) = some (cur ++ c) := by
      simp [upload_chunk, FS.update, h]
    have := ih (upload_chunk fs sid c).1 sid (cur ++ c) hstep
    simpa [uploadChunks, List.append_assoc] using this

theorem uploadChunks_webm (chunks : List Bytes) :
    ∀ (fs : FS) (sid : String),
      uploadChunks fs sid chunks (webmName sid) = fs (webmName sid) := by
  induction chunks with
  | nil => intro fs sid; simp [uploadChunks]
  | cons c cs ih =>
    intro fs sid
    have hstep : (upload_chunk fs sid c).1 (webmName sid) = fs (webmName sid) := by
      simp [upload_chunk, FS.update, webmName_ne_partName sid sid]
    have := ih (upload_chunk fs sid c).1 sid
    simp only [uploadChunks, List.foldl_cons] at this ⊢
    rw [this, hstep]

theorem finalize_move_webm (fs : FS) (sid : String) (t : TransResult)
    (now : String) (v : Bytes) (hp : fs (partName sid) = some v)
    (hw : fs (webmName sid) = none) :
    (finalize fs sid t now).1 (webmName sid) = some v := by
  have hmove : (fs.move (partName sid) (webmName sid)) (webmName sid) = some v := by
    simp [FS.move, hp]
  rcases t with _ | out | left
  · simp [finalize, hp, hw, finalize_to_mp4, hmove]
  · simp [finalize, hp, hw, finalize_to_mp4, FS.update,
      webmName_ne_mp4Name sid sid, hmove]
  · rcases left with _ | b
    · simp [finalize, hp, hw, finalize_to_mp4, hmove]
    · simp [finalize, hp, hw, finalize_to_mp4, FS.update,
        webmName_ne_mp4Name sid sid, hmove]

/-- C1: uploading N ≥ 1 chunks for a fresh session and then finalizing
produces a finalized video file whose bytes are exactly the concatenation of
the chunk bodies in upload order, so its length is the sum of the chunk
lengths (sequential single client; any transcoder behaviour). -/
theorem upload_finalize_concat (fs : FS) (sid : String) (chunks : List Bytes)
    (t : TransResult) (now : String)
    (hp : fs (partName sid) = none) (hw : fs (webmName sid) = none)
    (hne : chunks ≠ []) :
    (finalize (uploadChunks fs sid chunks) sid t now).1 (webmName sid)
        = some chunks.flatten
    ∧ chunks.flatten.length = (chunks.map List.length).sum := by
  constructor
  · rcases chunks with _ | ⟨c, cs⟩
    · cases hne rfl
    · have hstep : (upload_chunk fs sid c).1 (partName sid) = some c := by
        simp [upload_chunk, FS.update, hp]
      have hpart : uploadChunks fs sid (c :: cs) (partName sid)
          = some (c ++ cs.flatten) := by
        have := uploadChunks_part cs (upload_chunk fs sid c).1 sid c hstep
        simpa [uploadChunks] using this
      have hwebm : uploadChunks fs sid (c :: cs) (webmName sid) = none := by
        rw [uploadChunks_webm, hw]
      have := finalize_move_webm (uploadChunks fs sid (c :: cs)) sid t now
        (c ++ cs.flatten) hpart hwebm
      simpa using this
  · simp [List.length_flatten]

/-- C2: finalizing a session whose finalized video already exists is
idempotent: the directory state is unchanged byte-for-byte, the status is
200, the response reports success with the same finalized filename, plus the
transcoded filename when one already exists. -/
theorem finalize_idempotent (fs : FS) (sid : String) (t : TransResult)
    (now : String) (hw : (fs (webmName sid)).isSome = true) :
    (finalize fs sid t now).1 = fs
    ∧ (finalize fs sid t now).2.1 = 200
    ∧ ("ok", JVal.bool true) ∈ (finalize fs sid t now).2.2
    ∧ ("webm", JVal.str (webmName sid)) ∈ (finalize fs sid t now).2.2
    ∧ ((fs (mp4Name sid)).isSome = true →
        ("mp4", JVal.str (mp4Name sid)) ∈ (finalize fs sid t now).2.2) := by
  have hwn : ¬ (fs (webmName sid) = none) := by
    intro h; rw [h] at hw; cases hw
  by_cases hm : (fs (mp4Name sid)).isSome = true
  · refine ⟨?_, ?_, ?_, ?_, fun _ => ?_⟩ <;> simp [finalize, hwn, hw, hm]
  · refine ⟨?_, ?_, ?_, ?_, fun h => absurd h hm⟩ <;> simp [finalize, hwn, hw, hm]

/-- C3: finalizing a session for which neither a partial nor a finalized
video exists returns 404 with `ok = false` and leaves the directory
unchanged. -/
theorem finalize_no_recording (fs : FS) (sid : String) (t : TransResult)
    (now : String) (hp : fs (partName sid) = none)
    (hw : fs (webmName sid) = none) :
    finalize fs sid t now
      = (fs, 404, [("ok", JVal.bool false),
                   ("error", JVal.str "no recording")]) := by
  simp [finalize, hp, hw]

/-- A transcoder behaviour that is not a success: missing binary, non-zero
exit, or crash (with or without a leftover output file). -/
def TransFails : TransResult → Prop
  | .ok _ => False
  | _ => True

/-- C4 counterexample: finalizing a session with a pending partial upload
while the transcoder is unavailable yields a response in which the
transcoded-video field is NOT omitted: the key `"mp4"` is present, bound to
JSON `null`. -/
theorem finalize_mp4_field_not_omitted :
    ((finalize (FS.update emptyFS (partName "s") [1])
        "s" TransResult.unavailable "T").2.2).lookup "mp4"
      = some JVal.null := by decide

/-- C4 amended: any transcoder failure during a fresh finalize is swallowed:
the response has status 200, reports `ok = true` and the raw video's
filename, carries the transcoded-video field with value `null` (rather than
omitting it or surfacing an error), and has no error field. -/
theorem finalize_transcoder_failure_swallowed (fs : FS) (sid : String)
    (t : TransResult) (now : String)
    (hp : (fs (partName sid)).isSome = true)
    (hw : fs (webmName sid) = none) (hf : TransFails t) :
    (finalize fs sid t now).2.1 = 200
    ∧ (finalize fs sid t now).2.2.lookup "ok" = some (JVal.bool true)
    ∧ (finalize fs sid t now).2.2.lookup "webm"
        = some (JVal.str (webmName sid))
    ∧ (finalize fs sid t now).2.2.lookup "mp4" = some JVal.null
    ∧ (finalize fs sid t now).2.2.lookup "error" = none := by
  obtain ⟨v, hv⟩ := Option.isSome_iff_exists.mp hp
  have hmove : (fs.move (partName sid) (webmName sid)) (webmName sid)
      = some v := by simp [FS.move, hv]
  rcases t with _ | out | left
  · refine ⟨?_, ?_, ?_, ?_, ?_⟩ <;>
      simp [finalize, hv, hw, finalize_to_mp4, hmove, List.lookup]
  · cases hf
  · rcases left with _ | b
    · refine ⟨?_, ?_, ?_, ?_, ?_⟩ <;>
        simp [finalize, hv, hw, finalize_to_mp4, hmove, List.lookup]
    · refine ⟨?_, ?_, ?_, ?_, ?_⟩ <;>
        simp [finalize, hv, hw, finalize_to_mp4, FS.update,
          webmName_ne_mp4Name sid sid, hmove, List.lookup]

/-- Witness for C1 at a concrete input: session `"s"`, two chunks, empty
directory, transcoder unavailable. -/
theorem upload_finalize_concat_witness :
    emptyFS (partName "s") = none ∧ emptyFS (webmName "s") = none
    ∧ ([[1], [2, 3]] : List Bytes) ≠ []
    ∧ ((finalize (uploadChunks emptyFS "s" [[1], [2, 3]])
          "s" TransResult.unavailable "T").1 (webmName "s")
        = some ([[1], [2, 3]] : List Bytes).flatten
      ∧ ([[1], [2, 3]] : List Bytes).flatten.length
        = (([[1], [2, 3]] : List Bytes).map List.length).sum) :=
  ⟨rfl, rfl, by decide,
   upload_finalize_concat emptyFS "s" [[1], [2, 3]]
     TransResult.unavailable "T" rfl rfl (by decide)⟩

/-- Witness for C2 at a concrete input: a directory holding the finalized
video `s.webm`. -/
theorem finalize_idempotent_witness :
    ((FS.update emptyFS (webmName "s") [7]) (webmName "s")).isSome = true
    ∧ ((finalize (FS.update emptyFS (webmName "s") [7])
          "s" TransResult.unavailable "T").1
        = FS.update emptyFS (webmName "s") [7]
      ∧ (finalize (FS.update emptyFS (webmName "s") [7])
          "s" TransResult.unavailable "T").2.1 = 200
      ∧ ("ok", JVal.bool true) ∈
          (finalize (FS.update emptyFS (webmName "s") [7])
            "s" TransResult.unavailable "T").2.2
      ∧ ("webm", JVal.str (webmName "s")) ∈
          (finalize (FS.update emptyFS (webmName "s") [7])
            "s" TransResult.unavailable "T").2.2
      ∧ (((FS.update emptyFS (webmName "s") [7]) (mp4Name "s")).isSome = true →
          ("mp4", JVal.str (mp4Name "s")) ∈
            (finalize (FS.update emptyFS (webmName "s") [7])
              "s" TransResult.unavailable "T").2.2)) :=
  ⟨by decide,
   finalize_idempotent (FS.update emptyFS (webmName "s") [7])
     "s" TransResult.unavailable "T" (by decide)⟩

/-- Witness for C3 at a concrete input: the empty directory. -/
theorem finalize_no_recording_witness :
    emptyFS (partName "s") = none ∧ emptyFS (webmName "s") = none
    ∧ finalize emptyFS "s" TransResult.unavailable "T"
        = (emptyFS, 404, [("ok", JVal.bool false),
                          ("error", JVal.str "no recording")]) :=
  ⟨rfl, rfl,
   finalize_no_recording emptyFS "s" TransResult.unavailable "T" rfl rfl⟩

/-- Witness for C4 (amended) at a concrete input: a pending partial upload
and an unavailable transcoder. -/
theorem finalize_transcoder_failure_swallowed_witness :
    ((FS.update emptyFS (partName "s") [1]) (partName "s")).isSome = true
    ∧ (FS.update emptyFS (partName "s") [1]) (webmName "s") = none
    ∧ TransFails TransResult.unavailable
    ∧ ((finalize (FS.update emptyFS (partName "s") [1])
          "s" TransResult.unavailable "T").2.1 = 200
      ∧ (finalize (FS.update emptyFS (partName "s") [1])
          "s" TransResult.unavailable "T").2.2.lookup "ok"
          = some (JVal.bool true)
      ∧ (finalize (FS.update emptyFS (partName "s") [1])
          "s" TransResult.unavailable "T").2.2.lookup "webm"
          = some (JVal.str (webmName "s"))
      ∧ (finalize (FS.update emptyFS (partName "s") [1])
          "s" TransResult.unavailable "T").2.2.lookup "mp4"
          = some JVal.null
      ∧ (finalize (FS.update emptyFS (partName "s") [1])
          "s" TransResult.unavailable "T").2.2.lookup "error" = none) :=
  ⟨by decide, by decide, trivial,
   finalize_transcoder_failure_swallowed (FS.update emptyFS (partName "s") [1])
     "s" TransResult.unavailable "T" (by decide) (by decide) trivial⟩

/-- Python `str.endswith(ext)`, and the glob pattern `*{ext}` on a file
name (modulo glob's hidden-file rule, below). -/
def hasExt (ext name : String) : Bool := ext.data.isSuffixOf name.data

/-- `glob.glob` skips names whose first character is a dot. -/
def hiddenName (name : String) : Bool := name.data.head? == some '.'

/-- One `glob.glob(os.path.join(VIDEO_DIR, "*" + ext))` hit. -/
def globExt (ext : String) (name : String) : Bool :=
  hasExt ext name && !hiddenName name

/-- The `os.stat` metadata of one directory entry.  `mtime` is the
modification time in whole seconds; the listing code sorts by the
`"%Y-%m-%dT%H:%M:%SZ"` rendering of this value, whose lexicographic order
agrees with the numeric order of the underlying seconds. -/
structure DirEntry where
  name : String
  size : Nat
  mtime : Nat
deriving DecidableEq, Repr

/-- One element of the `_list_videos()` result. -/
structure VideoInfo where
  filename : String
  bytes : Nat
  modified : Nat
  url : String
  type : String
deriving DecidableEq, Repr

/-- Building one listing dictionary from a directory entry. -/
def videoEntry (kind : String) (e : DirEntry) : VideoInfo :=
  ⟨e.name, e.size, e.mtime, "/video/" ++ e.name, kind⟩

/-- The `*.mp4` pass of `_list_videos`, in directory-scan order. -/
def mp4Infos (d : List DirEntry) : List VideoInfo :=
  (d.filter (fun e => globExt ".mp4" e.name)).map (videoEntry "mp4")

/-- The `*.webm` pass of `_list_videos`, in directory-scan order. -/
def webmInfos (d : List DirEntry) : List VideoInfo :=
  (d.filter (fun e => globExt ".webm" e.name)).map (videoEntry "webm")

/-- `files.sort(key=modified, reverse=True)`: Python's stable sort,
descending on the modification timestamp. -/
def byModifiedDesc (a b : VideoInfo) : Bool := decide (b.modified ≤ a.modified)

/-- `_list_videos()` (`fuck.py`), as a function of the directory contents
`d` (in scan order): glob the two video kinds, build metadata, sort newest
first. -/
def list_videos (d : List DirEntry) : List VideoInfo :=
  (mp4Infos d ++ webmInfos d).mergeSort byModifiedDesc

/-- `GET /latest` (`fuck.py`): the first `.mp4` entry of the listing if any,
else the first entry; `none` when the listing is empty (404). -/
def latest (d : List DirEntry) : Option VideoInfo :=
  match list_videos d, (list_videos d).find? (fun v => hasExt ".mp4" v.filename) with
  | [], _ => none
  | _ :: _, some p => some p
  | v0 :: _, none => some v0

theorem find?_max_of_pairwise {α : Type} (key : α → Nat) (p : α → Bool) :
    ∀ (l : List α), l.Pairwise (fun a b => key b ≤ key a) →
      ∀ v, l.find? p = some v → ∀ u ∈ l, p u = true → key u ≤ key v := by
  intro l
  induction l with
  | nil => intro _ v hv; cases hv
  | cons h t ih =>
    intro hp v hv u hu hpu
    rw [List.pairwise_cons] at hp
    by_cases hph : p h = true
    · rw [List.find?_cons_of_pos _ hph] at hv
      cases hv
      rcases List.mem_cons.mp hu with rfl | hut
      · exact le_refl _
      · exact hp.1 u hut
    · rw [List.find?_cons_of_neg _ hph] at hv
      rcases List.mem_cons.mp hu with rfl | hut
      · exact absurd hpu hph
      · exact ih hp.2 v hv u hut hpu

theorem head_max_of_pairwise {α : Type} (key : α → Nat) (v0 : α)
    (rest : List α)
    (hp : (v0 :: rest).Pairwise (fun a b => key b ≤ key a)) :
    ∀ u ∈ v0 :: rest, key u ≤ key v0 := by
  rw [List.pairwise_cons] at hp
  intro u hu
  rcases List.mem_cons.mp hu with rfl | hut
  · exact le_refl _
  · exact hp.1 u hut

theorem list_videos_pairwise (d : List DirEntry) :
    (list_videos d).Pairwise (fun a b => b.modified ≤ a.modified) := by
  have h := @List.sorted_mergeSort _ byModifiedDesc
    (fun a b c hab hbc => by
      simp only [byModifiedDesc, decide_eq_true_eq] at hab hbc ⊢; omega)
    (fun a b => by
      simp only [byModifiedDesc]
      rcases Nat.le_total b.modified a.modified with h | h <;> simp [h])
    (mp4Infos d ++ webmInfos d)
  exact h.imp (fun hab => by
    simpa [byModifiedDesc] using hab)

/-- C6: the `/status` listing (`_list_videos`) is exactly the `.mp4` and
`.webm` artifacts together, ordered by non-increasing modification time. -/
theorem status_listing_sorted_desc (d : List DirEntry) :
    (list_videos d).Pairwise (fun a b => b.modified ≤ a.modified)
    ∧ (list_videos d).Perm (mp4Infos d ++ webmInfos d) :=
  ⟨list_videos_pairwise d, List.mergeSort_perm _ _⟩

/-- A directory refuting C5 as stated: session `a` was finalized and
transcoded long ago (`a.webm` at time 5, `a.mp4` at time 10), session `b`
produced only a raw video, most recently (`b.webm` at time 20). -/
def d5 : List DirEntry := [⟨"a.webm", 3, 5⟩, ⟨"a.mp4", 4, 10⟩, ⟨"b.webm", 5, 20⟩]

theorem list_videos_d5_eval : list_videos d5
    = [⟨"b.webm", 5, 20, "/video/b.webm", "webm"⟩,
       ⟨"a.mp4", 4, 10, "/video/a.mp4", "mp4"⟩,
       ⟨"a.webm", 3, 5, "/video/a.webm", "webm"⟩] := by
  have h1 : mp4Infos d5 = [⟨"a.mp4", 4, 10, "/video/a.mp4", "mp4"⟩] := by
    decide
  have h2 : webmInfos d5
      = [⟨"a.webm", 3, 5, "/video/a.webm", "webm"⟩,
         ⟨"b.webm", 5, 20, "/video/b.webm", "webm"⟩] := by
    decide
  rw [list_videos, h1, h2]
  simp [List.mergeSort, List.splitInTwo, List.splitAt,
    List.splitAt.go, List.merge, byModifiedDesc]

theorem latest_d5_eval :
    latest d5 = some ⟨"a.mp4", 4, 10, "/video/a.mp4", "mp4"⟩ := by
  unfold latest
  rw [list_videos_d5_eval]
  decide

/-- C5 counterexample: the most recent session `b` has no transcoded
counterpart, so by the claim `/latest` would tie-break by recency and serve
`b.webm` (modified 20); the code instead serves the stale `a.mp4`
(modified 10). -/
theorem latest_prefers_stale_mp4 :
    latest d5 = some ⟨"a.mp4", 4, 10, "/video/a.mp4", "mp4"⟩
    ∧ (⟨"b.webm", 5, 20, "/video/b.webm", "webm"⟩ : VideoInfo) ∈ list_videos d5
    ∧ (list_videos d5).all (fun u => u.filename != mp4Name "b")
    ∧ (10 : Nat) < 20 := by
  refine ⟨latest_d5_eval, ?_, ?_, by norm_num⟩
  · rw [list_videos_d5_eval]
    decide
  · rw [list_videos_d5_eval]
    decide

/-- C5 amended: `/latest` serves the most recently modified transcoded
(`.mp4`) artifact whenever any transcoded artifact exists — regardless of
which session it belongs to — and only otherwise falls back to the most
recently modified artifact overall. -/
theorem latest_prefers_any_mp4 (d : List DirEntry) (v : VideoInfo)
    (h : latest d = some v) :
    v ∈ list_videos d
    ∧ ((list_videos d).any (fun u => hasExt ".mp4" u.filename) = true →
        hasExt ".mp4" v.filename = true
        ∧ ∀ u ∈ list_videos d, hasExt ".mp4" u.filename = true →
            u.modified ≤ v.modified)
    ∧ ((list_videos d).any (fun u => hasExt ".mp4" u.filename) = false →
        ∀ u ∈ list_videos d, u.modified ≤ v.modified) := by
  have hp := list_videos_pairwise d
  unfold latest at h
  rcases hl : list_videos d with _ | ⟨v0, rest⟩
  · rw [hl] at h; simp at h
  · rw [hl] at h hp
    cases hf : (v0 :: rest).find? (fun u => hasExt ".mp4" u.filename) with
    | some p0 =>
      rw [hf] at h
      simp only [Option.some.injEq] at h
      subst h
      have hps : hasExt ".mp4" p0.filename = true :=
        List.find?_some (p := fun w : VideoInfo => hasExt ".mp4" w.filename) hf
      refine ⟨List.mem_of_find?_eq_some hf, fun _ => ?_, fun hany => ?_⟩
      · refine ⟨hps, ?_⟩
        intro u hu hpu
        exact find?_max_of_pairwise VideoInfo.modified
          (fun w : VideoInfo => hasExt ".mp4" w.filename)
          (v0 :: rest) hp p0 hf u hu hpu
      · rw [List.any_eq_false] at hany
        exact absurd hps (hany p0 (List.mem_of_find?_eq_some hf))
    | none =>
      rw [hf] at h
      simp only [Option.some.injEq] at h
      subst h
      refine ⟨List.mem_cons_self v0 rest, fun hany => ?_, fun _ => ?_⟩
      · rw [List.any_eq_true] at hany
        obtain ⟨u, hu, hpu⟩ := hany
        rw [List.find?_eq_none] at hf
        exact absurd hpu (hf u hu)
      · intro u hu
        exact head_max_of_pairwise VideoInfo.modified v0 rest hp u hu

/-- Witness for C5 (amended) at the concrete directory `d5`. -/
theorem latest_prefers_any_mp4_witness :
    latest d5 = some ⟨"a.mp4", 4, 10, "/video/a.mp4", "mp4"⟩
    ∧ ((⟨"a.mp4", 4, 10, "/video/a.mp4", "mp4"⟩ : VideoInfo) ∈ list_videos d5
      ∧ ((list_videos d5).any (fun u => hasExt ".mp4" u.filename) = true →
          hasExt ".mp4" (⟨"a.mp4", 4, 10, "/video/a.mp4", "mp4"⟩ : VideoInfo).filename = true
          ∧ ∀ u ∈ list_videos d5, hasExt ".mp4" u.filename = true →
              u.modified ≤ (⟨"a.mp4", 4, 10, "/video/a.mp4", "mp4"⟩ : VideoInfo).modified)
      ∧ ((list_videos d5).any (fun u => hasExt ".mp4" u.filename) = false →
          ∀ u ∈ list_videos d5,
            u.modified ≤ (⟨"a.mp4", 4, 10, "/video/a.mp4", "mp4"⟩ : VideoInfo).modified)) :=
  ⟨latest_d5_eval,
   latest_prefers_any_mp4 d5 ⟨"a.mp4", 4, 10, "/video/a.mp4", "mp4"⟩ latest_d5_eval⟩

namespace app

/-- `POST /upload/<session_id>` (`app.py`, the superseded variant): append
the body directly to the session's `.webm` file (no partial suffix) and
return `{"ok": true, "size": len(chunk)}` — the size of this chunk alone. -/
def upload_chunk (fs : FS) (sid : String) (body : Bytes) : FS × JObj :=
  let p := webmName sid
  (fs.update p (((fs p).getD []) ++ body),
   [("ok", JVal.bool true), ("size", JVal.nat body.length)])

end app

/-- C7 counterexample: in `app.py`, uploading a 2-byte chunk to a session
whose video file already holds 1 byte appends the bytes but reports size 2,
not the new total 3. -/
theorem app_upload_chunk_returns_chunk_size :
    (app.upload_chunk (FS.update emptyFS (webmName "s") [7]) "s" [8, 9]).1
        (webmName "s") = some [7, 8, 9]
    ∧ (app.upload_chunk (FS.update emptyFS (webmName "s") [7])
        "s" [8, 9]).2.lookup "size" = some (JVal.nat 2)
    ∧ JVal.nat 2 ≠ JVal.nat 3 := by decide

/-- C7 amended: the canonical chunk sink (`fuck.py`) appends the body to the
session's partial file (creating it if absent) and reports the file's new
total size `s + n` in `X-Received-Bytes`; the superseded `app.py` variant
appends to the raw `.webm` file and reports only the chunk's own size
`n`. -/
theorem upload_chunk_returns_total (fs : FS) (sid : String) (body : Bytes) :
    (upload_chunk fs sid body).1 (partName sid)
      = some (((fs (partName sid)).getD []) ++ body)
    ∧ (upload_chunk fs sid body).2
      = ((fs (partName sid)).getD []).length + body.length
    ∧ (app.upload_chunk fs sid body).2.lookup "size"
      = some (JVal.nat body.length) := by
  refine ⟨?_, ?_, ?_⟩ <;>
    simp [upload_chunk, app.upload_chunk, FS.update, List.lookup]

/-- `sorted(key=os.path.getmtime, reverse=True)` on directory entries:
Python's stable sort, descending on modification time. -/
def byMtimeDesc (a b : DirEntry) : Bool := decide (b.mtime ≤ a.mtime)

/-- `GET /snapshot/latest` (`fuck.py`): glob `*.jpg`, sort newest first,
serve the first (by name); `none` when there is no snapshot (404). -/
def snapshot_latest (d : List DirEntry) : Option String :=
  match (d.filter (fun e => globExt ".jpg" e.name)).mergeSort byMtimeDesc with
  | [] => none
  | e :: _ => some e.name

/-- Outcome of a GET request below `/snapshot/` in the app's URL map. -/
inductive SnapGet where
  | latestFile (name : String)
  | noSnapshot
  | methodNotAllowed
deriving DecidableEq, Repr

/-- GET dispatch for `/snapshot/{seg}` (`fuck.py`): the URL map has a GET
rule only at the static path `/snapshot/latest`; `/snapshot/<session_id>`
is registered for POST alone, so a GET at any other segment is refused. -/
def snapshotGet (d : List DirEntry) (seg : String) : SnapGet :=
  if seg = "latest" then
    match snapshot_latest d with
    | none => SnapGet.noSnapshot
    | some n => SnapGet.latestFile n
  else SnapGet.methodNotAllowed

theorem mergeSort_byMtime_pairwise (l : List DirEntry) :
    (l.mergeSort byMtimeDesc).Pairwise (fun a b => b.mtime ≤ a.mtime) := by
  have h := @List.sorted_mergeSort _ byMtimeDesc
    (fun a b c hab hbc => by
      simp only [byMtimeDesc, decide_eq_true_eq] at hab hbc ⊢; omega)
    (fun a b => by
      simp only [byMtimeDesc]
      rcases Nat.le_total b.mtime a.mtime with h | h <;> simp [h])
    l
  exact h.imp (fun hab => by simpa [byMtimeDesc] using hab)

theorem hasExt_of_append (s ext : String) : hasExt ext (s ++ ext) = true := by
  simp [hasExt, String.data_append]

/-- C8 counterexample: the second snapshot upload for session `s1` does
leave exactly the second image's bytes in `s1.jpg`, but they are not
retrievable via `GET /snapshot/s1`: that URL has no GET route (the dispatch
refuses the method), refuting the claim as stated. -/
theorem snapshot_get_by_session_missing :
    (snapshot (snapshot emptyFS "s1" [1] "T1").1 "s1" [2] "T2").1
        (snapName "s1") = some [2]
    ∧ snapshotGet [⟨"s1.jpg", 1, 5⟩] "s1" = SnapGet.methodNotAllowed
    ∧ SnapGet.methodNotAllowed ≠ SnapGet.latestFile "s1.jpg" := by decide

/-- C8 amended: a second snapshot upload truncates-and-overwrites the
session's snapshot file so only the second image's bytes remain; the
operation returns a timestamp and the snapshot filename; the bytes are
retrievable via `GET /snapshot/latest` whenever the session's snapshot is
the strictly most recent visible `.jpg` in the directory (there is no
`GET /snapshot/{session}` route — that URL accepts only POST). -/
theorem snapshot_overwrite_then_latest (fs : FS) (sid : String)
    (b1 b2 : Bytes) (t1 t2 : String) (d : List DirEntry) (sz m : Nat)
    (hmem : (⟨snapName sid, sz, m⟩ : DirEntry) ∈ d)
    (hvis : hiddenName (snapName sid) = false)
    (hmax : ∀ e ∈ d, globExt ".jpg" e.name = true →
      e.name ≠ snapName sid → e.mtime < m) :
    (snapshot (snapshot fs sid b1 t1).1 sid b2 t2).1 (snapName sid) = some b2
    ∧ (snapshot (snapshot fs sid b1 t1).1 sid b2 t2).2
        = [("ok", JVal.bool true), ("at", JVal.str t2),
           ("file", JVal.str (snapName sid))]
    ∧ snapshot_latest d = some (snapName sid)
    ∧ (∀ s, s ≠ "latest" → snapshotGet d s = SnapGet.methodNotAllowed) := by
  have hjpg : globExt ".jpg" (snapName sid) = true := by
    have : hasExt ".jpg" (snapName sid) = true := by
      rw [snapName, session_path]
      exact hasExt_of_append sid ".jpg"
    simp [globExt, this, hvis]
  refine ⟨by simp [snapshot, FS.update], by simp [snapshot], ?_, ?_⟩
  · have hx : (⟨snapName sid, sz, m⟩ : DirEntry)
        ∈ d.filter (fun e => globExt ".jpg" e.name) :=
      List.mem_filter.mpr ⟨hmem, hjpg⟩
    have hperm := List.mergeSort_perm
      (d.filter (fun e => globExt ".jpg" e.name)) byMtimeDesc
    have hpw := mergeSort_byMtime_pairwise
      (d.filter (fun e => globExt ".jpg" e.name))
    unfold snapshot_latest
    cases hm : (d.filter (fun e => globExt ".jpg" e.name)).mergeSort byMtimeDesc with
    | nil =>
      rw [hm] at hperm
      exact absurd (hperm.symm.mem_iff.mp hx) (List.not_mem_nil _)
    | cons e0 tail =>
      rw [hm] at hperm hpw
      by_cases hne : e0.name = snapName sid
      · simp [hne]
      · exfalso
        have he0d : e0 ∈ d.filter (fun e => globExt ".jpg" e.name) :=
          hperm.mem_iff.mp (List.mem_cons_self e0 tail)
        have he0f := List.mem_filter.mp he0d
        have hlt : e0.mtime < m := hmax e0 he0f.1 he0f.2 hne
        have hxin : (⟨snapName sid, sz, m⟩ : DirEntry) ∈ e0 :: tail :=
          hperm.mem_iff.mpr hx
        rcases List.mem_cons.mp hxin with heq | htail
        · exact hne (congrArg DirEntry.name heq.symm)
        · have hle : m ≤ e0.mtime := (List.pairwise_cons.mp hpw).1 _ htail
          omega
  · intro s hs
    simp [snapshotGet, hs]

/-- Witness for C8 (amended) at a concrete input: one session `s1`,
snapshots `[1]` then `[2]`, directory listing holding `s1.jpg`. -/
theorem snapshot_overwrite_then_latest_witness :
    (⟨snapName "s1", 1, 5⟩ : DirEntry) ∈ [(⟨"s1.jpg", 1, 5⟩ : DirEntry)]
    ∧ hiddenName (snapName "s1") = false
    ∧ (∀ e ∈ [(⟨"s1.jpg", 1, 5⟩ : DirEntry)], globExt ".jpg" e.name = true →
        e.name ≠ snapName "s1" → e.mtime < 5)
    ∧ ((snapshot (snapshot emptyFS "s1" [1] "T1").1 "s1" [2] "T2").1
          (snapName "s1") = some [2]
      ∧ (snapshot (snapshot emptyFS "s1" [1] "T1").1 "s1" [2] "T2").2
          = [("ok", JVal.bool true), ("at", JVal.str "T2"),
             ("file", JVal.str (snapName "s1"))]
      ∧ snapshot_latest [(⟨"s1.jpg", 1, 5⟩ : DirEntry)] = some (snapName "s1")
      ∧ (∀ s, s ≠ "latest" →
          snapshotGet [(⟨"s1.jpg", 1, 5⟩ : DirEntry)] s
            = SnapGet.methodNotAllowed)) :=
  ⟨by decide, by decide, by decide,
   snapshot_overwrite_then_latest emptyFS "s1" [1] [2] "T1" "T2"
     [⟨"s1.jpg", 1, 5⟩] 1 5 (by decide) (by decide) (by decide)⟩

/-- One state-changing request of the service. -/
inductive Op where
  | upload (sid : String) (body : Bytes)
  | snap (sid : String) (body : Bytes) (now : String)
  | fin (sid : String) (t : TransResult) (now : String)
deriving Repr

/-- The storage-directory effect of one request. -/
def step (fs : FS) : Op → FS
  | .upload sid body => (upload_chunk fs sid body).1
  | .snap sid body now => (snapshot fs sid body now).1
  | .fin sid t now => (finalize fs sid t now).1

/-- Running a whole request sequence. -/
def run (fs : FS) : List Op → FS
  | [] => fs
  | op :: rest => run (step fs op) rest

/-- The file names a request opens in append (`"ab"`) mode. -/
def appendTargets : Op → List String
  | .upload sid _ => [partName sid]
  | _ => []

/-- Whether a request, fired against state `fs`, performs the
partial-to-finalized rename for session `sid` (the `shutil.move` branch of
`finalize`). -/
def renameCount (fs : FS) (op : Op) (sid : String) : Nat :=
  match op with
  | .fin s _ _ =>
    if s = sid ∧ (fs (partName s)).isSome ∧ (fs (webmName s)).isNone
    then 1 else 0
  | _ => 0

/-- Total number of partial-to-finalized renames for session `sid` along a
request sequence. -/
def renamesAlong (fs : FS) (ops : List Op) (sid : String) : Nat :=
  match ops with
  | [] => 0
  | op :: rest => renameCount fs op sid + renamesAlong (step fs op) rest sid

theorem step_preserves_webm (fs : FS) (op : Op) (sid : String) (w : Bytes)
    (h : fs (webmName sid) = some w) : step fs op (webmName sid) = some w := by
  cases op with
  | upload s body =>
    simp [step, upload_chunk, FS.update, webmName_ne_partName sid s, h]
  | snap s body now =>
    simp [step, snapshot, FS.update, webmName_ne_snapName sid s, h]
  | fin s t now =>
    simp only [step, finalize]
    by_cases h1 : (fs (partName s)).isNone ∧ (fs (webmName s)).isNone
    · rw [if_pos h1]; exact h
    · rw [if_neg h1]
      by_cases h2 : (fs (webmName s)).isSome
      · rw [if_pos h2]; exact h
      · rw [if_neg h2]
        have hwn : fs (webmName s) = none := by
          rcases hfs : fs (webmName s) with _ | v
          · rfl
          · rw [hfs] at h2; simp at h2
        by_cases hss : webmName sid = webmName s
        · exfalso; rw [hss, hwn] at h; cases h
        · have hfs1 : (if (fs (partName s)).isSome
              then fs.move (partName s) (webmName s) else fs)
              (webmName sid) = some w := by
            split
            · simp [FS.move, hss, webmName_ne_partName sid s, h]
            · exact h
          rcases t with _ | out | left
          · simpa [finalize_to_mp4] using hfs1
          · simpa [finalize_to_mp4, FS.update,
              webmName_ne_mp4Name sid s] using hfs1
          · rcases left with _ | b
            · simpa [finalize_to_mp4] using hfs1
            · simpa [finalize_to_mp4, FS.update,
                webmName_ne_mp4Name sid s] using hfs1

theorem run_preserves_webm (ops : List Op) :
    ∀ (fs : FS) (sid : String) (w : Bytes), fs (webmName sid) = some w →
      run fs ops (webmName sid) = some w := by
  induction ops with
  | nil => intro fs sid w h; exact h
  | cons op rest ih =>
    intro fs sid w h
    exact ih (step fs op) sid w (step_preserves_webm fs op sid w h)

theorem renamesAlong_zero (ops : List Op) :
    ∀ (fs : FS) (sid : String), (fs (webmName sid)).isSome = true →
      renamesAlong fs ops sid = 0 := by
  induction ops with
  | nil => intro fs sid _; rfl
  | cons op rest ih =>
    intro fs sid h
    obtain ⟨w, hw⟩ := Option.isSome_iff_exists.mp h
    have hcount : renameCount fs op sid = 0 := by
      cases op with
      | upload s body => rfl
      | snap s body now => rfl
      | fin s t now =>
        rw [renameCount, if_neg]
        rintro ⟨rfl, -, hn⟩
        rw [Option.isNone_iff_eq_none, hw] at hn
        cases hn
    have hstep : (step fs op (webmName sid)).isSome = true := by
      rw [step_preserves_webm fs op sid w hw]; rfl
    rw [renamesAlong, hcount, ih (step fs op) sid hstep]

theorem renamesAlong_le_one (ops : List Op) :
    ∀ (fs : FS) (sid : String), renamesAlong fs ops sid ≤ 1 := by
  induction ops with
  | nil => intro fs sid; exact Nat.zero_le 1
  | cons op rest ih =>
    intro fs sid
    cases op with
    | upload s body =>
      rw [renamesAlong,
        show renameCount fs (Op.upload s body) sid = 0 from rfl]
      simpa using ih _ sid
    | snap s body now =>
      rw [renamesAlong,
        show renameCount fs (Op.snap s body now) sid = 0 from rfl]
      simpa using ih _ sid
    | fin s t now =>
      by_cases hc : s = sid ∧ (fs (partName s)).isSome
          ∧ (fs (webmName s)).isNone
      · obtain ⟨rfl, hps, hwn⟩ := hc
        obtain ⟨v, hv⟩ := Option.isSome_iff_exists.mp hps
        have hwn' : fs (webmName s) = none :=
          Option.isNone_iff_eq_none.mp hwn
        have hstep : (step fs (Op.fin s t now) (webmName s)).isSome = true := by
          rw [show step fs (Op.fin s t now) = (finalize fs s t now).1 from rfl,
            finalize_move_webm fs s t now v hv hwn']
          rfl
        rw [renamesAlong, renameCount, if_pos ⟨rfl, hps, hwn⟩,
          renamesAlong_zero rest _ s hstep]
      · rw [renamesAlong, renameCount, if_neg hc]
        simpa using ih _ sid

/-- C9: along every request sequence from every starting state, no request
ever opens a finalized-video name in append mode (appends touch only
`.webm.partial` names); a finalized video, once present, keeps its exact
bytes forever; and the partial-to-finalized rename fires at most once per
session. -/
theorem finalized_video_invariant (fs : FS) (ops : List Op) (sid : String) :
    (∀ op ∈ ops, ∀ p ∈ appendTargets op, p ≠ webmName sid)
    ∧ (∀ w, fs (webmName sid) = some w → run fs ops (webmName sid) = some w)
    ∧ renamesAlong fs ops sid ≤ 1 := by
  refine ⟨?_, fun w hw => run_preserves_webm ops fs sid w hw,
    renamesAlong_le_one ops fs sid⟩
  intro op hop p hp
  cases op with
  | upload s body =>
    simp only [appendTargets, List.mem_singleton] at hp
    subst hp
    exact fun hcon => webmName_ne_partName sid s hcon.symm
  | snap s body now => simp [appendTargets] at hp
  | fin s t now => simp [appendTargets] at hp

/-- Witness for C9 at a concrete input: an upload followed by two
finalizes for session `s`. -/
theorem finalized_video_invariant_witness :
    (∀ op ∈ [Op.upload "s" [1], Op.fin "s" TransResult.unavailable "T",
        Op.fin "s" TransResult.unavailable "U"],
      ∀ p ∈ appendTargets op, p ≠ webmName "s")
    ∧ (∀ w, emptyFS (webmName "s") = some w →
        run emptyFS [Op.upload "s" [1], Op.fin "s" TransResult.unavailable "T",
          Op.fin "s" TransResult.unavailable "U"] (webmName "s") = some w)
    ∧ renamesAlong emptyFS [Op.upload "s" [1],
        Op.fin "s" TransResult.unavailable "T",
        Op.fin "s" TransResult.unavailable "U"] "s" ≤ 1 :=
  finalized_video_invariant emptyFS
    [Op.upload "s" [1], Op.fin "s" TransResult.unavailable "T",
     Op.fin "s" TransResult.unavailable "U"] "s"

/-- An absolute host path, as its `/`-separated components from the root. -/
abbrev AbsPath := List String

/-- The host filesystem outside the service: canonical absolute path ↦
contents. -/
abbrev OsFS := AbsPath → Option Bytes

def splitPathAux (cur : List Char) : List Char → List String
  | [] => [String.mk cur.reverse]
  | c :: cs =>
    if c = '/' then String.mk cur.reverse :: splitPathAux [] cs
    else splitPathAux (c :: cur) cs

/-- Splitting a path string at `/` separators (as the operating system
does when it walks the path `os.path.join` produced). -/
def splitPath (s : String) : List String := splitPathAux [] s.data

/-- Canonicalising a component list the way the kernel walks it: `.` and
empty components are skipped, `..` pops one level (staying at the root when
already there). -/
def resolveAux (stack : List String) : List String → List String
  | [] => stack.reverse
  | c :: cs =>
    if c = ".." then resolveAux stack.tail cs
    else if c = "." ∨ c = "" then resolveAux stack cs
    else resolveAux (c :: stack) cs

def resolve (p : List String) : List String := resolveAux [] p

/-- Outcome of `GET /video/<path:filename>`. -/
inductive ServeResult where
  | file (content : Bytes)
  | notFound
deriving DecidableEq, Repr

/-- `GET /video/<path:filename>` (`fuck.py`): build
`os.path.join(VIDEO_DIR, filename)` — `dir` is `VIDEO_DIR` as canonical
absolute components, and the route's `path` converter admits separators and
`..` components but never a leading slash — then serve the file at the
resolved path if it exists, else 404.  No normalisation or containment
check is applied to `filename`. -/
def serve_video (osfs : OsFS) (dir : AbsPath) (filename : String) :
    ServeResult :=
  match osfs (resolve (dir ++ splitPath filename)) with
  | some b => ServeResult.file b
  | none => ServeResult.notFound

/-- C10: `/video/{filename}` 404s exactly when no file exists at the join
of the storage directory with the filename, and otherwise streams that
file; and a filename with parent-directory components resolves outside the
storage directory (e.g. `../../secret` from `/srv/videos` reaches
`/secret`), so the served file is not confined to it. -/
theorem serve_video_spec (osfs : OsFS) (dir : AbsPath) (filename : String)
    (hns : filename.data.head? ≠ some '/') :
    (serve_video osfs dir filename = ServeResult.notFound
      ↔ osfs (resolve (dir ++ splitPath filename)) = none)
    ∧ (∀ b, serve_video osfs dir filename = ServeResult.file b
      ↔ osfs (resolve (dir ++ splitPath filename)) = some b)
    ∧ resolve (["srv", "videos"] ++ splitPath "../../secret") = ["secret"] := by
  refine ⟨?_, fun b => ?_, by decide⟩
  · cases hv : osfs (resolve (dir ++ splitPath filename)) <;>
      simp [serve_video, hv]
  · cases hv : osfs (resolve (dir ++ splitPath filename)) <;>
      simp [serve_video, hv]

/-- Witness for C10 at a concrete input: a host file `/secret` reached from
`/srv/videos` through `filename = "../../secret"`. -/
theorem serve_video_spec_witness :
    ("../../secret".data.head? ≠ some '/')
    ∧ ((serve_video
          (fun p => if p = ["secret"] then some [42] else none)
          ["srv", "videos"] "../../secret" = ServeResult.notFound
        ↔ (fun p : AbsPath => if p = ["secret"] then some [42] else none)
            (resolve (["srv", "videos"] ++ splitPath "../../secret")) = none)
      ∧ (∀ b, serve_video
          (fun p => if p = ["secret"] then some [42] else none)
          ["srv", "videos"] "../../secret" = ServeResult.file b
        ↔ (fun p : AbsPath => if p = ["secret"] then some [42] else none)
            (resolve (["srv", "videos"] ++ splitPath "../../secret"))
            = some b)
      ∧ resolve (["srv", "videos"] ++ splitPath "../../secret")
          = ["secret"]) :=
  ⟨by decide,
   serve_video_spec (fun p => if p = ["secret"] then some [42] else none)
     ["srv", "videos"] "../../secret" (by decide)⟩
